import Mathlib

/-!
Verification development for the K-1008 multiple-cards image utility.

The definitions below are shallow embeddings of the C sources:
  * `ihex.c`  : Intel-hex record writer (`ihex_write`, `ihex_terminate`)
  * `pap.c`   : MOS papertape record writer (`pap_write`, `pap_terminate`)
  * `kimg.c`  : palette reader, image-header parser, bit-plane converter
                (`convert_to_layers`) and the record-serializer driver
                (`output_hex`).

Machine integers are modelled as `Nat` with explicit `% 2^8` / `% 2^16`
truncation at the places where the C code performs 8- or 16-bit arithmetic.
File I/O always succeeds in the model (the claims under study are all about
the successful serialization path); the byte stream written by a serializer
is modelled as the list of its record lines.
-/

/-! ### Constants from kimg.c / ihex.c / pap.c -/

def MAX_PALETTE_SIZE : Nat := 16
def MAX_COL_BYTES : Nat := 40
def MAX_ROWS : Nat := 200
def MAX_IMAGE_SIZE : Nat := MAX_COL_BYTES * 8 * MAX_ROWS
def CARD_MEMORY_SIZE : Nat := 8192

/-! ### Hexadecimal rendering (models fprintf %2.2X / %4.4X on uint8/uint16) -/

def hexDigit (n : Nat) : Char :=
  if n < 10 then Char.ofNat (48 + n) else Char.ofNat (55 + n)

def toHex2 (n : Nat) : String :=
  String.mk [hexDigit (n / 16 % 16), hexDigit (n % 16)]

def toHex4 (n : Nat) : String :=
  String.mk [hexDigit (n / 4096 % 16), hexDigit (n / 256 % 16),
             hexDigit (n / 16 % 16), hexDigit (n % 16)]

/-! ### Record chunking shared by both writers

Both `ihex_write` and `pap_write` walk the buffer in a single `while` loop,
starting a new record every `BYTES_PER_LINE` bytes; `bytes_in_line` is
`min(BYTES_PER_LINE, remaining)` and the 16-bit address is incremented once
per data byte.  `hexChunks L address data` is the list of
(record start address, record data bytes) pairs that loop produces. -/

def hexChunks (L : Nat) : Nat → List Nat → List (Nat × List Nat)
  | _, [] => []
  | address, b :: rest =>
    (address, b :: rest.take (L - 1)) ::
      hexChunks L (address + 1 + (rest.take (L - 1)).length) (rest.drop (L - 1))
termination_by _ data => data.length
decreasing_by
  simp only [List.length_cons, List.length_drop]
  omega

/-! ### ihex.c -/

/-- One Intel-hex record line, exactly as the fprintf calls of `ihex_write`
emit it: `:`, byte count (%2.2X), 16-bit address (%4.4X), the literal `00`
record type, each data byte (%2.2X), and the running uint8 checksum
accumulator printed as `(uint8_t)(~checksum + 1)`.  The accumulator starts
at `bytes_in_line + ((address >> 8) & 0xFF) + (address & 0xFF) + 0x00` and
adds every data byte, all in uint8 arithmetic. -/
def ihexRecordString (address : Nat) (chunk : List Nat) : String :=
  let hi := address / 256 % 256
  let lo := address % 256
  let checksum := chunk.foldl (fun c b => (c + b) % 256) ((chunk.length + hi + lo + 0) % 256)
  ":" ++ toHex2 chunk.length ++ toHex4 (address % 65536) ++ "00"
    ++ String.join (chunk.map toHex2) ++ toHex2 ((255 - checksum + 1) % 256) ++ "\n"

/-- `ihex_write` from ihex.c, success path.  Returns the record lines (the C
function prints each record's checksum either when the next record starts or
after the loop, so the stream is exactly the concatenation of complete
records) and the `lines` counter it returns.  For an empty buffer the C loop
body never runs, the trailing `fprintf` still emits the checksum of the
initial accumulator (`"00\n"`) and `lines = 0` (the failure sentinel). -/
def ihex_write (address : Nat) (data : List Nat) : List String × Nat :=
  match data with
  | [] => (["00\n"], 0)
  | _ :: _ =>
    let chunks := hexChunks 32 address data
    (chunks.map (fun p => ihexRecordString p.1 p.2), chunks.length)

/-- `ihex_terminate` from ihex.c: writes a fixed line, ignoring `lines`. -/
def ihex_terminate : String := ":00000001FF\n"

/-! ### pap.c -/

/-- One papertape record line as emitted by `pap_write`: `;`, byte count,
16-bit address, the data bytes, then the uint16 checksum accumulator printed
as %4.4X (not negated).  The accumulator is re-initialised at each record
start to `bytes_in_line + ((address >> 8) & 0xFF) + (address & 0xFF)` and
adds every data byte of the record, in uint16 arithmetic. -/
def papRecordString (address : Nat) (chunk : List Nat) : String :=
  let hi := address / 256 % 256
  let lo := address % 256
  let checksum := chunk.foldl (fun c b => (c + b) % 65536) ((chunk.length + hi + lo) % 65536)
  ";" ++ toHex2 chunk.length ++ toHex4 (address % 65536)
    ++ String.join (chunk.map toHex2) ++ toHex4 checksum ++ "\n"

/-- `pap_write` from pap.c, success path; same record/return structure as
`ihex_write` but with 24 bytes per record. -/
def pap_write (address : Nat) (data : List Nat) : List String × Nat :=
  match data with
  | [] => (["0000\n"], 0)
  | _ :: _ =>
    let chunks := hexChunks 24 address data
    (chunks.map (fun p => papRecordString p.1 p.2), chunks.length)

/-- `pap_terminate` from pap.c: `;00`, the uint16 line count as %4.4X, then
`((lines >> 8) & 0xFF) + (lines & 0xFF)` as %4.4X. -/
def pap_terminate (lines : Nat) : String :=
  ";00" ++ toHex4 (lines % 65536)
    ++ toHex4 (lines % 65536 / 256 % 256 + lines % 65536 % 256) ++ "\n"

/-! ### output_hex from kimg.c -/

/-- uint8 loads from the combined plane buffer (`uint8_t *data`). -/
def readBytes (data : Nat → Nat) (off n : Nat) : List Nat :=
  (List.range n).map (fun i => data (off + i) % 256)

/-- The sequence of `write_fn(output_file, address, data + offset, size)`
calls performed by `output_hex` (kimg.c lines 377-407): one flat call per
bit-plane when `x_size > (MAX_COL_BYTES - 1) * 8`, otherwise one call per
bit-plane and image row.  Each call is recorded as (address argument, bytes
of the buffer slice passed). -/
def output_hex_calls (base : Nat) (data : Nat → Nat)
    (data_size color_bits x_size y_size : Nat) : List (Nat × List Nat) :=
  (List.range color_bits).flatMap (fun cbit =>
    let cbit_offset := cbit * CARD_MEMORY_SIZE
    if (MAX_COL_BYTES - 1) * 8 < x_size then
      [(base + cbit_offset, readBytes data cbit_offset data_size)]
    else
      (List.range y_size).map (fun linenum =>
        let line_offset := linenum * MAX_COL_BYTES
        (base + cbit_offset + line_offset,
         readBytes data (cbit_offset + linenum * ((x_size + 7) / 8)) ((x_size + 7) / 8))))

/-- `output_hex` success path: concatenates each call's record lines into the
output stream and accumulates the returned line counts (`lines += retlines`). -/
def output_hex (writer : Nat → List Nat → List String × Nat) (base : Nat)
    (data : Nat → Nat) (data_size color_bits x_size y_size : Nat) : String × Nat :=
  (output_hex_calls base data data_size color_bits x_size y_size).foldl
    (fun acc c =>
      let r := writer c.1 c.2
      (acc.1 ++ String.join r.1, acc.2 + r.2))
    ("", 0)

/-- `output_ihex`: the hex driver with the ihex writer, then the terminator. -/
def output_ihex (base : Nat) (data : Nat → Nat)
    (data_size color_bits x_size y_size : Nat) : String :=
  (output_hex ihex_write base data data_size color_bits x_size y_size).1 ++ ihex_terminate

/-- `output_pap`: the hex driver with the papertape writer, then the
terminator applied to the accumulated line count. -/
def output_pap (base : Nat) (data : Nat → Nat)
    (data_size color_bits x_size y_size : Nat) : String :=
  let r := output_hex pap_write base data data_size color_bits x_size y_size
  r.1 ++ pap_terminate r.2

/-! ### Generic arithmetic and fold lemmas -/

theorem foldl_add_mod (m : Nat) :
    ∀ (l : List Nat) (init : Nat),
      l.foldl (fun c b => (c + b) % m) (init % m) = (init + l.sum) % m := by
  intro l
  induction l with
  | nil => intro init; simp
  | cons b t ih =>
    intro init
    simp only [List.foldl_cons, List.sum_cons]
    rw [Nat.mod_add_mod, ih (init + b), Nat.add_assoc]

theorem hexChunks_length (L : Nat) (hL : 0 < L) :
    ∀ (n : Nat) (data : List Nat) (a : Nat), data.length ≤ n → data ≠ [] →
      (hexChunks L a data).length = (data.length + (L - 1)) / L := by
  intro n
  induction n with
  | zero =>
    intro data a hlen hne
    cases data with
    | nil => exact absurd rfl hne
    | cons b rest => simp at hlen
  | succ n ih =>
    intro data a hlen hne
    cases data with
    | nil => exact absurd rfl hne
    | cons b rest =>
      rw [hexChunks]
      by_cases hdrop : rest.length ≤ L - 1
      · have h1 : rest.drop (L - 1) = [] := List.drop_of_length_le hdrop
        rw [h1, hexChunks]
        have h2 : (b :: rest).length + (L - 1) = rest.length + L := by
          simp only [List.length_cons]; omega
        rw [h2, Nat.add_div_right _ hL, Nat.div_eq_of_lt (by omega)]
        rfl
      · have hne2 : rest.drop (L - 1) ≠ [] := by
          intro h
          rw [List.drop_eq_nil_iff] at h
          omega
        have hlen2 : (rest.drop (L - 1)).length ≤ n := by
          simp only [List.length_drop]
          simp only [List.length_cons] at hlen
          omega
        simp only [List.length_cons]
        rw [ih _ (a + 1 + (rest.take (L - 1)).length) hlen2 hne2]
        simp only [List.length_drop]
        have h3 : rest.length - (L - 1) + (L - 1) = rest.length := by omega
        rw [h3]
        have h4 : rest.length + 1 + (L - 1) = rest.length + L := by omega
        rw [h4, Nat.add_div_right _ hL]

theorem foldl_output_lines (w : Nat → List Nat → List String × Nat) :
    ∀ (l : List (Nat × List Nat)) (s : String) (k : Nat),
      (l.foldl (fun acc c =>
          let r := w c.1 c.2
          (acc.1 ++ String.join r.1, acc.2 + r.2)) (s, k)).2
        = k + (l.map (fun c => (w c.1 c.2).2)).sum := by
  intro l
  induction l with
  | nil => intro s k; simp
  | cons c t ih =>
    intro s k
    simp only [List.foldl_cons, List.map_cons, List.sum_cons]
    rw [ih]
    omega

/-! ### C4: per-record checksum correctness for both serializers -/

theorem ihexRecordString_eq (a : Nat) (ch : List Nat) :
    ihexRecordString a ch
      = ":" ++ toHex2 ch.length ++ toHex4 (a % 65536) ++ "00"
          ++ String.join (ch.map toHex2)
          ++ toHex2 ((256 - (ch.length + a / 256 % 256 + a % 256 + ch.sum) % 256) % 256)
          ++ "\n" := by
  simp only [ihexRecordString]
  have h1 : (ch.length + a / 256 % 256 + a % 256 + 0) % 256
      = (ch.length + a / 256 % 256 + a % 256) % 256 := by omega
  rw [h1, foldl_add_mod 256 ch (ch.length + a / 256 % 256 + a % 256)]
  have h2 : (255 - (ch.length + a / 256 % 256 + a % 256 + ch.sum) % 256 + 1) % 256
      = (256 - (ch.length + a / 256 % 256 + a % 256 + ch.sum) % 256) % 256 := by omega
  rw [h2]

theorem papRecordString_eq (a : Nat) (ch : List Nat) :
    papRecordString a ch
      = ";" ++ toHex2 ch.length ++ toHex4 (a % 65536)
          ++ String.join (ch.map toHex2)
          ++ toHex4 ((ch.length + a / 256 % 256 + a % 256 + ch.sum) % 65536)
          ++ "\n" := by
  simp only [papRecordString]
  rw [foldl_add_mod 65536 ch (ch.length + a / 256 % 256 + a % 256)]

/-- C4: every record of a successful `ihex_write` of a nonempty buffer is
`:`, 2-hex byte count, 4-hex start address, literal `00`, 2-hex data bytes,
then the two's-complement negation (mod 256) of (byte count + address high
byte + address low byte + data-byte sum), and a newline; every record of a
successful `pap_write` carries the analogous non-negated 16-bit sum as a
4-hex trailing checksum, recomputed fresh from the three leading terms at
each record start. -/
theorem serializer_checksum (address : Nat) (data : List Nat) (h : data ≠ []) :
    (ihex_write address data).1
      = (hexChunks 32 address data).map (fun p =>
          ":" ++ toHex2 p.2.length ++ toHex4 (p.1 % 65536) ++ "00"
            ++ String.join (p.2.map toHex2)
            ++ toHex2 ((256 - (p.2.length + p.1 / 256 % 256 + p.1 % 256 + p.2.sum) % 256) % 256)
            ++ "\n")
    ∧ (pap_write address data).1
      = (hexChunks 24 address data).map (fun p =>
          ";" ++ toHex2 p.2.length ++ toHex4 (p.1 % 65536)
            ++ String.join (p.2.map toHex2)
            ++ toHex4 ((p.2.length + p.1 / 256 % 256 + p.1 % 256 + p.2.sum) % 65536)
            ++ "\n") := by
  cases data with
  | nil => exact absurd rfl h
  | cons b rest =>
    constructor
    · show ((hexChunks 32 address (b :: rest)).map fun p => ihexRecordString p.1 p.2) = _
      exact List.map_congr_left (fun p _ => ihexRecordString_eq p.1 p.2)
    · show ((hexChunks 24 address (b :: rest)).map fun p => papRecordString p.1 p.2) = _
      exact List.map_congr_left (fun p _ => papRecordString_eq p.1 p.2)

theorem serializer_checksum_witness :
    (ihex_write 8192 [1, 2]).1
      = (hexChunks 32 8192 [1, 2]).map (fun p =>
          ":" ++ toHex2 p.2.length ++ toHex4 (p.1 % 65536) ++ "00"
            ++ String.join (p.2.map toHex2)
            ++ toHex2 ((256 - (p.2.length + p.1 / 256 % 256 + p.1 % 256 + p.2.sum) % 256) % 256)
            ++ "\n")
    ∧ (pap_write 8192 [1, 2]).1
      = (hexChunks 24 8192 [1, 2]).map (fun p =>
          ";" ++ toHex2 p.2.length ++ toHex4 (p.1 % 65536)
            ++ String.join (p.2.map toHex2)
            ++ toHex4 ((p.2.length + p.1 / 256 % 256 + p.1 % 256 + p.2.sum) % 65536)
            ++ "\n") :=
  serializer_checksum 8192 [1, 2] (by decide)

/-! ### C5: record counts -/

/-- C5: a successful write of a nonempty buffer of `N` bytes emits exactly
`ceil(N/L)` records and returns that count (`L` = 32 for Intel hex, 24 for
papertape), and the `output_hex` driver accumulates the returned counts of
all its per-plane / per-row write calls into the total line count. -/
theorem serializer_record_count (address : Nat) (data : List Nat) (h : data ≠ []) :
    (ihex_write address data).2 = (data.length + 31) / 32
    ∧ (ihex_write address data).1.length = (data.length + 31) / 32
    ∧ (pap_write address data).2 = (data.length + 23) / 24
    ∧ (pap_write address data).1.length = (data.length + 23) / 24
    ∧ ∀ (w : Nat → List Nat → List String × Nat) (base : Nat) (buf : Nat → Nat)
        (ds cb xs ys : Nat),
        (output_hex w base buf ds cb xs ys).2
          = ((output_hex_calls base buf ds cb xs ys).map (fun c => (w c.1 c.2).2)).sum := by
  cases data with
  | nil => exact absurd rfl h
  | cons b rest =>
    have h32 := hexChunks_length 32 (by omega) (b :: rest).length (b :: rest) address le_rfl (by simp)
    have h24 := hexChunks_length 24 (by omega) (b :: rest).length (b :: rest) address le_rfl (by simp)
    refine ⟨?_, ?_, ?_, ?_, ?_⟩
    · show (hexChunks 32 address (b :: rest)).length = _
      exact h32
    · show ((hexChunks 32 address (b :: rest)).map _).length = _
      rw [List.length_map]; exact h32
    · show (hexChunks 24 address (b :: rest)).length = _
      exact h24
    · show ((hexChunks 24 address (b :: rest)).map _).length = _
      rw [List.length_map]; exact h24
    · intro w base buf ds cb xs ys
      unfold output_hex
      rw [foldl_output_lines w (output_hex_calls base buf ds cb xs ys) "" 0]
      omega

theorem serializer_record_count_witness :
    (ihex_write 8192 [1, 2]).2 = (([1, 2] : List Nat).length + 31) / 32
    ∧ (ihex_write 8192 [1, 2]).1.length = (([1, 2] : List Nat).length + 31) / 32
    ∧ (pap_write 8192 [1, 2]).2 = (([1, 2] : List Nat).length + 23) / 24
    ∧ (pap_write 8192 [1, 2]).1.length = (([1, 2] : List Nat).length + 23) / 24
    ∧ ∀ (w : Nat → List Nat → List String × Nat) (base : Nat) (buf : Nat → Nat)
        (ds cb xs ys : Nat),
        (output_hex w base buf ds cb xs ys).2
          = ((output_hex_calls base buf ds cb xs ys).map (fun c => (w c.1 c.2).2)).sum :=
  serializer_record_count 8192 [1, 2] (by decide)

/-! ### C6: stream terminators -/

/-- C6: every successful Intel-hex serialization ends with exactly the line
`:00000001FF` plus newline, and every successful papertape serialization
ends with `;00`, the 16-bit total line count as 4 hex digits, then
`((lines >> 8) & 0xFF) + (lines & 0xFF)` as 4 hex digits. -/
theorem stream_terminator (base : Nat) (data : Nat → Nat)
    (ds cb xs ys : Nat) :
    (∃ s, output_ihex base data ds cb xs ys = s ++ ":00000001FF\n")
    ∧ (∃ s, output_pap base data ds cb xs ys
        = s ++ (";00"
            ++ toHex4 ((output_hex pap_write base data ds cb xs ys).2 % 65536)
            ++ toHex4 ((((output_hex pap_write base data ds cb xs ys).2 % 65536) >>> 8 &&& 255)
                + (((output_hex pap_write base data ds cb xs ys).2 % 65536) &&& 255))
            ++ "\n")) := by
  have hL : ∀ n : Nat, ((n % 65536) >>> 8 &&& 255) + ((n % 65536) &&& 255)
      = n % 65536 / 256 % 256 + n % 65536 % 256 := by
    intro n
    have hpow : (2 : Nat) ^ 8 = 256 := by norm_num
    have hs : (n % 65536) >>> 8 = n % 65536 / 256 := by
      rw [Nat.shiftRight_eq_div_pow, hpow]
    have ha : ∀ m : Nat, m &&& 255 = m % 256 := by
      intro m
      have h8 := Nat.and_pow_two_sub_one_eq_mod m 8
      norm_num at h8
      exact h8
    rw [hs, ha, ha]
  constructor
  · exact ⟨(output_hex ihex_write base data ds cb xs ys).1, rfl⟩
  · refine ⟨(output_hex pap_write base data ds cb xs ys).1, ?_⟩
    simp only [output_pap, pap_terminate]
    rw [hL]

/-! ### Indexing lemmas for the call list -/

theorem flatMap_const_length {α : Type} (f : Nat → List α) (n : Nat)
    (hf : ∀ i, (f i).length = n) :
    ∀ m, ((List.range m).flatMap f).length = m * n := by
  intro m
  induction m with
  | zero => simp
  | succ m ih =>
    rw [List.range_succ, List.flatMap_append]
    simp only [List.length_append, ih, List.flatMap_cons, List.flatMap_nil,
      List.append_nil, hf m, Nat.succ_mul]

theorem flatMap_range'_getElem? {α : Type} (f : Nat → List α) (n : Nat)
    (hf : ∀ i, (f i).length = n) :
    ∀ (m s i j : Nat), i < m → j < n →
      ((List.range' s m).flatMap f)[i * n + j]? = (f (s + i))[j]? := by
  intro m
  induction m with
  | zero => intro s i j hi; omega
  | succ m ih =>
    intro s i j hi hj
    rw [List.range'_succ, List.flatMap_cons]
    cases i with
    | zero =>
      rw [Nat.zero_mul, Nat.zero_add, Nat.add_zero]
      exact List.getElem?_append_left (by rw [hf s]; exact hj)
    | succ i =>
      have hsplit : (i + 1) * n + j = (f s).length + (i * n + j) := by
        rw [hf s, Nat.succ_mul]
        omega
      rw [hsplit, List.getElem?_append_right (Nat.le_add_right _ _), Nat.add_sub_cancel_left,
        ih (s + 1) i j (by omega) hj]
      have harg : s + 1 + i = s + (i + 1) := by omega
      rw [harg]

/-! ### C3: row-mode serialization addressing -/

/-- C3: when `x_size` is at most `(MAX_COL_BYTES - 1) * 8 = 312`, `output_hex`
makes one separate write call per bit-plane and image row: call number
`b * y_size + r` passes exactly `ceil(x_size/8)` bytes taken from combined
buffer offset `b * CARD_MEMORY_SIZE + r * ceil(x_size/8)` with start address
`base + b * CARD_MEMORY_SIZE + r * MAX_COL_BYTES`. -/
theorem row_mode_addressing (base : Nat) (data : Nat → Nat)
    (data_size color_bits x_size y_size b r : Nat)
    (hxs : x_size ≤ (MAX_COL_BYTES - 1) * 8) (hb : b < color_bits) (hr : r < y_size) :
    (output_hex_calls base data data_size color_bits x_size y_size).length
        = color_bits * y_size
    ∧ (output_hex_calls base data data_size color_bits x_size y_size)[b * y_size + r]?
        = some (base + b * CARD_MEMORY_SIZE + r * MAX_COL_BYTES,
            readBytes data (b * CARD_MEMORY_SIZE + r * ((x_size + 7) / 8)) ((x_size + 7) / 8))
    ∧ (readBytes data (b * CARD_MEMORY_SIZE + r * ((x_size + 7) / 8)) ((x_size + 7) / 8)).length
        = (x_size + 7) / 8 := by
  have hcond : ¬ ((MAX_COL_BYTES - 1) * 8 < x_size) := not_lt.mpr hxs
  have hlen : ∀ cbit : Nat,
      ((List.range y_size).map (fun linenum =>
        (base + cbit * CARD_MEMORY_SIZE + linenum * MAX_COL_BYTES,
         readBytes data (cbit * CARD_MEMORY_SIZE + linenum * ((x_size + 7) / 8))
           ((x_size + 7) / 8)))).length = y_size := by
    intro cbit
    rw [List.length_map, List.length_range]
  refine ⟨?_, ?_, ?_⟩
  · simp only [output_hex_calls, if_neg hcond]
    exact flatMap_const_length _ y_size hlen color_bits
  · simp only [output_hex_calls, if_neg hcond]
    rw [List.range_eq_range', flatMap_range'_getElem? _ y_size hlen color_bits 0 b r hb hr,
      Nat.zero_add, List.getElem?_map, List.getElem?_range hr]
    rfl
  · simp only [readBytes, List.length_map, List.length_range]

theorem row_mode_addressing_witness :
    (output_hex_calls 8192 (fun _ => 0) 40 1 8 1).length = 1 * 1
    ∧ (output_hex_calls 8192 (fun _ => 0) 40 1 8 1)[0 * 1 + 0]?
        = some (8192 + 0 * CARD_MEMORY_SIZE + 0 * MAX_COL_BYTES,
            readBytes (fun _ => 0) (0 * CARD_MEMORY_SIZE + 0 * ((8 + 7) / 8)) ((8 + 7) / 8))
    ∧ (readBytes (fun _ => 0) (0 * CARD_MEMORY_SIZE + 0 * ((8 + 7) / 8)) ((8 + 7) / 8)).length
        = (8 + 7) / 8 :=
  row_mode_addressing 8192 (fun _ => 0) 40 1 8 1 0 0 (by decide) (by decide) (by decide)

/-! ### convert_to_layers from kimg.c

The C function mutates three pieces of state: the `binary` output buffer,
the running output byte index `conv_byte` and the count `data_size`.  The
state is modelled as `(memory, conv_byte, data_size)` and the three nested
loops as folds.  The innermost pixel loop (which ORs one bit per pixel into
the current output byte, stopping at the row edge) is `pixelLoop`; since the
C code first zeroes the destination byte and then only ORs into it, the
byte's final value is computed functionally and stored with one write. -/

def writeByte (mem : Nat → Nat) (addr val : Nat) : Nat → Nat :=
  fun a => if a = addr then val else mem a

/-- The `for (pixel = 0; pixel < 8 && (x + pixel) < x_size; ++pixel)` loop of
`convert_to_layers`, accumulating
`((raw[(y*x_size)+x+pixel] >> cbit) & 1) << (7 - pixel)` by OR. -/
def pixelLoop (raw : Nat → Nat) (x_size y x cbit pixel acc : Nat) : Nat :=
  if _h : pixel < 8 ∧ x + pixel < x_size then
    pixelLoop raw x_size y x cbit (pixel + 1)
      (acc ||| ((raw (y * x_size + x + pixel) >>> cbit &&& 1) <<< (7 - pixel)))
  else acc
termination_by 8 - pixel
decreasing_by omega

/-- Body of the `for cbit` loop: store the completed byte of plane `cbit` at
`conv_byte + CARD_MEMORY_SIZE * cbit` and bump `data_size`. -/
def cbitBody (raw : Nat → Nat) (x_size y x : Nat)
    (st : (Nat → Nat) × Nat × Nat) (cbit : Nat) : (Nat → Nat) × Nat × Nat :=
  (writeByte st.1 (st.2.1 + CARD_MEMORY_SIZE * cbit) (pixelLoop raw x_size y x cbit 0 0),
   st.2.1, st.2.2 + 1)

/-- Body of the `for x` loop (one 8-pixel group): run all bit-planes, then
`++conv_byte`. -/
def groupBody (raw : Nat → Nat) (color_bits x_size y : Nat)
    (st : (Nat → Nat) × Nat × Nat) (x : Nat) : (Nat → Nat) × Nat × Nat :=
  let st2 := (List.range color_bits).foldl (cbitBody raw x_size y x) st
  (st2.1, st2.2.1 + 1, st2.2.2)

/-- Body of the `for y` loop: the `x` values are `0, 8, 16, ...`, one per
pixel group, i.e. `ceil(x_size/8)` iterations. -/
def rowBody (raw : Nat → Nat) (color_bits x_size : Nat)
    (st : (Nat → Nat) × Nat × Nat) (y : Nat) : (Nat → Nat) × Nat × Nat :=
  ((List.range ((x_size + 7) / 8)).map (fun g => g * 8)).foldl
    (groupBody raw color_bits x_size y) st

/-- `convert_to_layers` from kimg.c: returns the final
`(binary buffer, conv_byte, data_size)` state; `binary` is the initial
(uninitialised in C) content of the output buffer and the int return value
of the C function is the `data_size` component. -/
def convert_to_layers (raw binary : Nat → Nat)
    (color_bits x_size y_size : Nat) : (Nat → Nat) × Nat × Nat :=
  (List.range y_size).foldl (rowBody raw color_bits x_size) (binary, 0, 0)

/-! ### C2: flat-mode serialization covers more than one plane per plane -/

/-- C2 (code bug exhibit): for a 320x1 image with 2 bit-planes,
`convert_to_layers` returns `data_size = 80` = `color_bits * ceil(320/8) * 1`
(the byte count of ALL planes together), and `output_hex` in flat mode
(`x_size > 312`) passes that whole `data_size` to the per-plane write of
each plane, so each of the two per-plane calls covers 80 bytes instead of
the plane's own `ceil(320/8) * 1 = 40` bytes. -/
theorem flat_mode_total_size_bug :
    (convert_to_layers (fun _ => 0) (fun _ => 0) 2 320 1).2.2 = 80
    ∧ ((output_hex_calls 8192 (convert_to_layers (fun _ => 0) (fun _ => 0) 2 320 1).1
          (convert_to_layers (fun _ => 0) (fun _ => 0) 2 320 1).2.2 2 320 1).map
        (fun c => c.2.length)) = [80, 80]
    ∧ (320 + 7) / 8 * 1 = 40 := by
  refine ⟨by decide, by decide, by decide⟩

/-! ### read_palette from kimg.c

A palette line is modelled at the granularity of the
`sscanf(line, "%hhu %hhu %hhu %*s", ...)` call: the line is the list of its
whitespace-separated tokens, each recorded as `some v` when `%hhu` parses it
as a number and `none` when the conversion fails on it.  `lineMatches` is
the value sscanf returns (number of leading numeric conversions, capped at
3; empty input / EOF is lumped with 0, matching the `matches > 0` test). -/

def lineMatches (l : List (Option Nat)) : Nat :=
  match l with
  | some _ :: some _ :: some _ :: _ => 3
  | some _ :: some _ :: _ => 2
  | some _ :: _ => 1
  | _ => 0

/-- The (r, g, b) triple a fully matching line stores into `palette[ncolors]`. -/
def lineColor (l : List (Option Nat)) : Nat × Nat × Nat :=
  match l with
  | some r :: some g :: some b :: _ => (r, g, b)
  | _ => (0, 0, 0)

/-- The `while (fgets(...))` loop of `read_palette`; the accumulated palette
doubles as the `ncolors` counter (its length).  Error paths return the
`ncolors = 0` failure value exactly where the C code breaks with
`ncolors = 0`. -/
def read_palette_loop :
    List (List (Option Nat)) → List (Nat × Nat × Nat) → Nat × List (Nat × Nat × Nat)
  | [], palette => (palette.length, palette)
  | l :: rest, palette =>
    if 0 < lineMatches l then
      if lineMatches l ≠ 3 then (0, palette)
      else if palette.length = MAX_PALETTE_SIZE then (0, palette)
      else read_palette_loop rest (palette ++ [lineColor l])
    else read_palette_loop rest palette

/-- `read_palette` from kimg.c, applied to the token-level model of the lines
after the already-validated signature line: returns (ncolors, palette). -/
def read_palette (lines : List (List (Option Nat))) : Nat × List (Nat × Nat × Nat) :=
  read_palette_loop lines []

def isColorLine (l : List (Option Nat)) : Bool := lineMatches l == 3

theorem read_palette_loop_bad :
    ∀ (lines : List (List (Option Nat))) (palette : List (Nat × Nat × Nat)),
      (∃ l ∈ lines, lineMatches l = 1 ∨ lineMatches l = 2) →
      (read_palette_loop lines palette).1 = 0 := by
  intro lines
  induction lines with
  | nil => intro palette h; simp at h
  | cons l rest ih =>
    intro palette h
    by_cases hm0 : lineMatches l = 0
    · rw [read_palette_loop, if_neg (by omega)]
      refine ih palette ?_
      rcases h with ⟨l2, hl2, hbad⟩
      rcases List.mem_cons.mp hl2 with heq | hmem
      · subst heq; omega
      · exact ⟨l2, hmem, hbad⟩
    · by_cases hm3 : lineMatches l = 3
      · rw [read_palette_loop, if_pos (by omega), if_neg (by omega)]
        by_cases hfull : palette.length = MAX_PALETTE_SIZE
        · rw [if_pos hfull]
        · rw [if_neg hfull]
          refine ih _ ?_
          rcases h with ⟨l2, hl2, hbad⟩
          rcases List.mem_cons.mp hl2 with heq | hmem
          · subst heq; omega
          · exact ⟨l2, hmem, hbad⟩
      · rw [read_palette_loop, if_pos (by omega), if_pos hm3]

theorem read_palette_loop_overflow :
    ∀ (lines : List (List (Option Nat))) (palette : List (Nat × Nat × Nat)),
      palette.length ≤ MAX_PALETTE_SIZE →
      MAX_PALETTE_SIZE < palette.length + (lines.filter isColorLine).length →
      (read_palette_loop lines palette).1 = 0 := by
  intro lines
  induction lines with
  | nil => intro palette hle hgt; simp at hgt; omega
  | cons l rest ih =>
    intro palette hle hgt
    by_cases hm3 : lineMatches l = 3
    · rw [read_palette_loop, if_pos (by omega), if_neg (by omega)]
      by_cases hfull : palette.length = MAX_PALETTE_SIZE
      · rw [if_pos hfull]
      · rw [if_neg hfull]
        refine ih _ ?_ ?_
        · rw [List.length_append]
          simp only [List.length_cons, List.length_nil]
          omega
        · have hfl : (List.filter isColorLine (l :: rest)).length
              = ((List.filter isColorLine rest)).length + 1 := by
            rw [List.filter_cons, if_pos (by simp [isColorLine, hm3])]
            simp
          rw [List.length_append] at *
          simp only [List.length_cons, List.length_nil]
          omega
    · have hfl : List.filter isColorLine (l :: rest) = List.filter isColorLine rest := by
        rw [List.filter_cons, if_neg (by simp [isColorLine, hm3])]
      by_cases hm0 : lineMatches l = 0
      · rw [read_palette_loop, if_neg (by omega)]
        refine ih palette hle ?_
        rw [hfl] at hgt
        exact hgt
      · rw [read_palette_loop, if_pos (by omega), if_pos hm3]

theorem read_palette_loop_ok :
    ∀ (lines : List (List (Option Nat))) (palette : List (Nat × Nat × Nat)),
      (∀ l ∈ lines, lineMatches l = 0 ∨ lineMatches l = 3) →
      palette.length + (lines.filter isColorLine).length ≤ MAX_PALETTE_SIZE →
      read_palette_loop lines palette
        = (palette.length + (lines.filter isColorLine).length,
           palette ++ (lines.filter isColorLine).map lineColor) := by
  intro lines
  induction lines with
  | nil => intro palette hok hle; simp [read_palette_loop]
  | cons l rest ih =>
    intro palette hok hle
    rcases hok l (List.mem_cons_self l rest) with hm0 | hm3
    · have hfl : List.filter isColorLine (l :: rest) = List.filter isColorLine rest := by
        rw [List.filter_cons, if_neg (by simp [isColorLine, hm0])]
      rw [read_palette_loop, if_neg (by omega), hfl]
      rw [hfl] at hle
      exact ih palette (fun l2 h2 => hok l2 (List.mem_cons_of_mem l h2)) hle
    · have hfl : List.filter isColorLine (l :: rest)
          = l :: List.filter isColorLine rest := by
        rw [List.filter_cons, if_pos (by simp [isColorLine, hm3])]
      rw [hfl] at hle ⊢
      simp only [List.length_cons] at hle ⊢
      rw [read_palette_loop, if_pos (by omega), if_neg (by omega), if_neg (by omega)]
      rw [ih (palette ++ [lineColor l]) (fun l2 h2 => hok l2 (List.mem_cons_of_mem l h2))
        (by rw [List.length_append]; simp only [List.length_cons, List.length_nil]; omega)]
      rw [List.length_append]
      simp only [List.length_cons, List.length_nil, List.map_cons, List.append_assoc,
        List.cons_append, List.nil_append]
      congr 1
      omega

theorem read_palette_loop_le :
    ∀ (lines : List (List (Option Nat))) (palette : List (Nat × Nat × Nat)),
      palette.length ≤ MAX_PALETTE_SIZE →
      (read_palette_loop lines palette).1 ≤ MAX_PALETTE_SIZE := by
  intro lines
  induction lines with
  | nil => intro palette hle; exact hle
  | cons l rest ih =>
    intro palette hle
    by_cases hm0 : lineMatches l = 0
    · rw [read_palette_loop, if_neg (by omega)]
      exact ih palette hle
    · by_cases hm3 : lineMatches l = 3
      · rw [read_palette_loop, if_pos (by omega), if_neg (by omega)]
        by_cases hfull : palette.length = MAX_PALETTE_SIZE
        · rw [if_pos hfull]; omega
        · rw [if_neg hfull]
          refine ih _ ?_
          rw [List.length_append]
          simp only [List.length_cons, List.length_nil]
          omega
      · rw [read_palette_loop, if_pos (by omega), if_pos hm3]; omega

/-! ### C8: palette reader error conditions -/

/-- C8: with a valid signature line, `read_palette` fails (returns 0) when
some line sscanf-matches exactly 1 or 2 numeric tokens, and when the valid
3-token color lines outnumber `MAX_PALETTE_SIZE = 16`; lines matching zero
tokens are skipped, and otherwise it succeeds returning the number of valid
3-token lines, their colors appended in order. -/
theorem palette_reader_errors (lines : List (List (Option Nat))) :
    ((∃ l ∈ lines, lineMatches l = 1 ∨ lineMatches l = 2) → (read_palette lines).1 = 0)
    ∧ (MAX_PALETTE_SIZE < (lines.filter isColorLine).length → (read_palette lines).1 = 0)
    ∧ ((∀ l ∈ lines, lineMatches l = 0 ∨ lineMatches l = 3) →
        (lines.filter isColorLine).length ≤ MAX_PALETTE_SIZE →
        (read_palette lines).1 = (lines.filter isColorLine).length
        ∧ (read_palette lines).2 = (lines.filter isColorLine).map lineColor) := by
  refine ⟨?_, ?_, ?_⟩
  · intro h
    exact read_palette_loop_bad lines [] h
  · intro h
    refine read_palette_loop_overflow lines [] (by simp [MAX_PALETTE_SIZE]) ?_
    simpa using h
  · intro hok hle
    have h := read_palette_loop_ok lines [] hok (by simpa using hle)
    unfold read_palette
    rw [h]
    simp

theorem palette_reader_errors_witness :
    (read_palette [[some 1, some 2]]).1 = 0 :=
  (palette_reader_errors [[some 1, some 2]]).1 ⟨[some 1, some 2], by simp, by right; rfl⟩

/-! ### C9: the derived plane count -/

/-- `color_bits = (int)log2( ncolors )` from `main` (kimg.c line 625); for
`ncolors` in `[1, 16]` the double-precision `log2` truncated to int is
exactly `Nat.log2`. -/
def color_bits_of (ncolors : Nat) : Nat := Nat.log2 ncolors

/-- C9 counterexample: a palette file with a single valid color line is
accepted by `read_palette` with `ncolors = 1`, and the derived plane count
is `floor(log2 1) = 0`, which is not in the claimed range `[1, 4]`. -/
theorem color_bits_counterexample :
    (read_palette [[some 10, some 20, some 30]]).1 = 1
    ∧ ¬ (1 ≤ color_bits_of (read_palette [[some 10, some 20, some 30]]).1) := by
  have h1 : (read_palette [[some 10, some 20, some 30]]).1 = 1 := by decide
  refine ⟨h1, ?_⟩
  rw [h1]
  simp [color_bits_of, Nat.log2]

/-- C9 amended: for every palette accepted by `read_palette` with at least
two colors (`ncolors` in `[2, 16]`), the derived plane count
`color_bits = floor(log2 ncolors)` lies in `[1, 4]`. -/
theorem color_bits_range (lines : List (List (Option Nat)))
    (h2 : 2 ≤ (read_palette lines).1) :
    1 ≤ color_bits_of (read_palette lines).1
    ∧ color_bits_of (read_palette lines).1 ≤ 4 := by
  have h16 : (read_palette lines).1 ≤ 16 := by
    have := read_palette_loop_le lines [] (by simp [MAX_PALETTE_SIZE])
    simpa [MAX_PALETTE_SIZE] using this
  have hne : (read_palette lines).1 ≠ 0 := by omega
  unfold color_bits_of
  constructor
  · rw [Nat.le_log2 hne]
    omega
  · have h5 : Nat.log2 (read_palette lines).1 < 5 := by
      rw [Nat.log2_lt hne]
      omega
    omega

theorem color_bits_range_witness :
    1 ≤ color_bits_of (read_palette [[some 0, some 0, some 0], [some 1, some 1, some 1]]).1
    ∧ color_bits_of (read_palette [[some 0, some 0, some 0], [some 1, some 1, some 1]]).1 ≤ 4 :=
  color_bits_range [[some 0, some 0, some 0], [some 1, some 1, some 1]] (by decide)

/-! ### get_image_dimensions from kimg.c

Each input line either matches neither sscanf pattern, or is a
`"static unsigned int width = <v>;"` line, or a
`"static unsigned int height = <v>;"` line (the two literal patterns are
mutually exclusive); a matching line stores `v` into the corresponding
variable. -/

inductive DimLine where
  | other : DimLine
  | width (v : Nat) : DimLine
  | height (v : Nat) : DimLine
deriving DecidableEq

/-- The two `sscanf` calls applied to one line, updating `(x_size, y_size)`. -/
def dimScan (st : Nat × Nat) : DimLine → Nat × Nat
  | DimLine.other => st
  | DimLine.width v => (v, st.2)
  | DimLine.height v => (st.1, v)

/-- The `while (fgets(...))` loop of `get_image_dimensions`: scan a line,
return `(x_size, y_size)` as soon as both are nonzero, `none` at
end-of-input otherwise. -/
def get_image_dimensions_loop : List DimLine → Nat × Nat → Option (Nat × Nat)
  | [], _ => none
  | l :: rest, st =>
    let st2 := dimScan st l
    if st2.1 ≠ 0 ∧ st2.2 ≠ 0 then some st2
    else get_image_dimensions_loop rest st2

/-- `get_image_dimensions` from kimg.c (`*x_size = 0; *y_size = 0;` first). -/
def get_image_dimensions (lines : List DimLine) : Option (Nat × Nat) :=
  get_image_dimensions_loop lines (0, 0)

/-! ### C10: zero dimension declarations -/

/-- C10 counterexample: a `width = 0` declaration is not treated exactly like
an absent declaration, because it overwrites a previously stored nonzero
width: `[width 5, width 0, height 3]` fails while the same input with the
zero declaration absent succeeds, and a header containing a zero width
declaration followed by a nonzero one is accepted, not rejected. -/
theorem dimension_zero_counterexample :
    get_image_dimensions [DimLine.width 5, DimLine.width 0, DimLine.height 3] = none
    ∧ get_image_dimensions [DimLine.width 5, DimLine.height 3] = some (5, 3)
    ∧ get_image_dimensions [DimLine.width 0, DimLine.width 5, DimLine.height 3]
        = some (5, 3) := by
  refine ⟨by decide, by decide, by decide⟩

theorem get_image_dimensions_loop_pos :
    ∀ (lines : List DimLine) (st : Nat × Nat) (x y : Nat),
      get_image_dimensions_loop lines st = some (x, y) → 1 ≤ x ∧ 1 ≤ y := by
  intro lines
  induction lines with
  | nil => intro st x y h; simp [get_image_dimensions_loop] at h
  | cons l rest ih =>
    intro st x y h
    rw [get_image_dimensions_loop] at h
    by_cases hc : (dimScan st l).1 ≠ 0 ∧ (dimScan st l).2 ≠ 0
    · rw [if_pos hc] at h
      have h2 := Option.some.inj h
      have hx : (dimScan st l).1 = x := by rw [h2]
      have hy : (dimScan st l).2 = y := by rw [h2]
      omega
    · rw [if_neg hc] at h
      exact ih _ x y h

theorem get_image_dimensions_loop_zero_width :
    ∀ (lines : List DimLine) (st : Nat × Nat), st.1 = 0 →
      (∀ v, DimLine.width v ∈ lines → v = 0) →
      get_image_dimensions_loop lines st = none := by
  intro lines
  induction lines with
  | nil => intro st h0 hw; rfl
  | cons l rest ih =>
    intro st h0 hw
    have h1 : (dimScan st l).1 = 0 := by
      cases l with
      | other => exact h0
      | width v => exact hw v (List.mem_cons_self _ _)
      | height v => exact h0
    rw [get_image_dimensions_loop, if_neg (by omega)]
    exact ih _ h1 (fun v hv => hw v (List.mem_cons_of_mem l hv))

theorem get_image_dimensions_loop_zero_height :
    ∀ (lines : List DimLine) (st : Nat × Nat), st.2 = 0 →
      (∀ v, DimLine.height v ∈ lines → v = 0) →
      get_image_dimensions_loop lines st = none := by
  intro lines
  induction lines with
  | nil => intro st h0 hh; rfl
  | cons l rest ih =>
    intro st h0 hh
    have h1 : (dimScan st l).2 = 0 := by
      cases l with
      | other => exact h0
      | width v => exact h0
      | height v => exact hh v (List.mem_cons_self _ _)
    rw [get_image_dimensions_loop, if_neg (by omega)]
    exact ih _ h1 (fun v hv => hh v (List.mem_cons_of_mem l hv))

/-- C10 amended: `get_image_dimensions` succeeds only with both dimensions
nonzero (on success `x_size >= 1` and `y_size >= 1` hold), and a zero-valued
width (resp. height) declaration does not satisfy the requirement: if every
width (resp. height) declaration in the input carries the value 0, the scan
reaches end-of-input and fails.  (A zero declaration is however not exactly
like an absent line: it overwrites a previously seen nonzero value.) -/
theorem dimensions_nonzero (lines : List DimLine) :
    (∀ x y, get_image_dimensions lines = some (x, y) → 1 ≤ x ∧ 1 ≤ y)
    ∧ ((∀ v, DimLine.width v ∈ lines → v = 0) → get_image_dimensions lines = none)
    ∧ ((∀ v, DimLine.height v ∈ lines → v = 0) → get_image_dimensions lines = none) := by
  refine ⟨?_, ?_, ?_⟩
  · intro x y h
    exact get_image_dimensions_loop_pos lines (0, 0) x y h
  · intro hw
    exact get_image_dimensions_loop_zero_width lines (0, 0) rfl hw
  · intro hh
    exact get_image_dimensions_loop_zero_height lines (0, 0) rfl hh

theorem dimensions_nonzero_witness :
    get_image_dimensions [DimLine.width 0] = none :=
  (dimensions_nonzero [DimLine.width 0]).2.1 (fun v hv => by
    simp only [List.mem_singleton, DimLine.width.injEq] at hv
    omega)

/-! ### parse_image from kimg.c

Input lines are lists of characters (each line as read by `fgets`, without
the trailing newline; lines are assumed to fit the read buffer, so the
C code's truncated-line check never fires).  `takeDigits` is the
`strtoul(line, &line, 10)` call performed at a digit position: it consumes
the maximal digit run and returns (value, rest of line). -/

def takeDigits : List Char → Nat → Nat × List Char
  | [], acc => (acc, [])
  | c :: cs, acc =>
    if c.isDigit then takeDigits cs (acc * 10 + (c.toNat - 48))
    else (acc, c :: cs)

theorem takeDigits_length :
    ∀ (cs : List Char) (acc : Nat), (takeDigits cs acc).2.length ≤ cs.length := by
  intro cs
  induction cs with
  | nil => intro acc; simp [takeDigits]
  | cons c t ih =>
    intro acc
    rw [takeDigits]
    by_cases hd : c.isDigit
    · rw [if_pos hd]
      exact Nat.le_succ_of_le (ih _)
    · rw [if_neg hd]

/-- The inner `while (*line != '\n' ...)` loop of `parse_image` over one
line: skip non-digits; at a digit, first check `image_size > MAX_IMAGE_SIZE`
(failure), then parse the number with `strtoul`, truncate it to `uint8_t`,
translate through `cmap` and append.  The accumulated image doubles as the
`image_size` counter (its length). -/
def parseImageLine (cmap : Nat → Nat) : List Char → List Nat → Option (List Nat)
  | [], acc => some acc
  | c :: cs, acc =>
    if c.isDigit then
      if MAX_IMAGE_SIZE < acc.length then none
      else
        parseImageLine cmap (takeDigits cs (c.toNat - 48)).2
          (acc ++ [cmap ((takeDigits cs (c.toNat - 48)).1 % 256)])
    else parseImageLine cmap cs acc
termination_by l _ => l.length
decreasing_by
  · simp only [List.length_cons]
    exact Nat.lt_succ_of_le (takeDigits_length cs (c.toNat - 48))
  · simp only [List.length_cons]
    omega

/-- `strstr(line, "};")` (the characters `}` and `;`). -/
def hasEndMarker : List Char → Bool
  | c1 :: c2 :: rest =>
    (c1.toNat == 125 && c2.toNat == 59) || hasEndMarker (c2 :: rest)
  | _ => false

/-- `parse_image` from kimg.c: for each line, first look for the closing
`"};"` (returning the pixel count accumulated so far), otherwise harvest the
line's decimal tokens; end-of-input without the closing marker is the
`"Can't find image data end"` failure (the 0 return value, modelled as
`none`). -/
def parse_image (cmap : Nat → Nat) : List (List Char) → List Nat → Option (List Nat)
  | [], _ => none
  | l :: rest, acc =>
    if hasEndMarker l then some acc
    else (parseImageLine cmap l acc).bind (fun acc2 => parse_image cmap rest acc2)

/-! ### C7: image capacity check is off by one -/

theorem parse_image_replicate (cmap : Nat → Nat) :
    ∀ (n : Nat) (acc : List Nat), acc.length + n ≤ MAX_IMAGE_SIZE + 1 →
      parse_image cmap
          (List.replicate n [Char.ofNat 48] ++ [[Char.ofNat 125, Char.ofNat 59]]) acc
        = some (acc ++ List.replicate n (cmap 0)) := by
  intro n
  induction n with
  | zero =>
    intro acc hle
    simp only [List.replicate_zero, List.nil_append, List.append_nil]
    rw [parse_image, if_pos (by decide)]
  | succ n ih =>
    intro acc hle
    rw [List.replicate_succ, List.cons_append, parse_image, if_neg (by decide)]
    have hcap : ¬ (MAX_IMAGE_SIZE < acc.length) := by omega
    have hpl : parseImageLine cmap [Char.ofNat 48] acc = some (acc ++ [cmap 0]) := by
      rw [parseImageLine, if_pos (by decide), if_neg hcap]
      have h48 : (Char.ofNat 48).toNat - 48 = 0 := by decide
      rw [h48]
      simp [takeDigits, parseImageLine]
    rw [hpl, Option.some_bind]
    rw [ih (acc ++ [cmap 0]) (by
      simp only [List.length_append, List.length_cons, List.length_nil]
      omega)]
    simp [List.replicate_succ]

/-- C7 (code bug exhibit): `parse_image` checks `image_size > MAX_IMAGE_SIZE`
before storing the next token, so a pixel-data block with
`MAX_IMAGE_SIZE + 1 = 64001` decimal tokens before the closing `};` line is
parsed successfully, returning a pixel count of 64001 > 64000 (and the C
code stores `image[64000]`, one past the end of the 64000-byte buffer). -/
theorem image_capacity_bug :
    parse_image (fun v => v)
        (List.replicate (MAX_IMAGE_SIZE + 1) [Char.ofNat 48]
          ++ [[Char.ofNat 125, Char.ofNat 59]]) []
      = some (List.replicate (MAX_IMAGE_SIZE + 1) 0)
    ∧ MAX_IMAGE_SIZE < (List.replicate (MAX_IMAGE_SIZE + 1) (0 : Nat)).length := by
  constructor
  · have h := parse_image_replicate (fun v => v) (MAX_IMAGE_SIZE + 1) [] (by simp)
    simpa using h
  · simp

/-! ### C1: bit-plane round trip -/

theorem pixelLoop_acc (raw : Nat → Nat) (x_size y x cbit : Nat) :
    ∀ (fuel p acc : Nat), 8 - p ≤ fuel →
      pixelLoop raw x_size y x cbit p acc
        = acc ||| pixelLoop raw x_size y x cbit p 0 := by
  intro fuel
  induction fuel with
  | zero =>
    intro p acc hf
    have hc : ¬ (p < 8 ∧ x + p < x_size) := by omega
    rw [pixelLoop.eq_def, dif_neg hc]
    conv_rhs => rw [pixelLoop.eq_def, dif_neg hc]
    simp
  | succ fuel ih =>
    intro p acc hf
    by_cases hc : p < 8 ∧ x + p < x_size
    · rw [pixelLoop.eq_def, dif_pos hc]
      conv_rhs => rw [pixelLoop.eq_def, dif_pos hc]
      rw [ih (p + 1)
        (acc ||| ((raw (y * x_size + x + p) >>> cbit &&& 1) <<< (7 - p))) (by omega)]
      rw [ih (p + 1)
        (0 ||| ((raw (y * x_size + x + p) >>> cbit &&& 1) <<< (7 - p))) (by omega)]
      rw [Nat.zero_or, Nat.lor_assoc]
    · rw [pixelLoop.eq_def, dif_neg hc]
      conv_rhs => rw [pixelLoop.eq_def, dif_neg hc]
      simp

theorem pixelLoop_testBit (raw : Nat → Nat) (x_size y x cbit k : Nat) (hk : k < 8) :
    ∀ (fuel p : Nat), 8 - p ≤ fuel →
      (pixelLoop raw x_size y x cbit p 0).testBit (7 - k)
        = (decide (p ≤ k) && decide (x + k < x_size)
            && (raw (y * x_size + x + k)).testBit cbit) := by
  intro fuel
  induction fuel with
  | zero =>
    intro p hf
    have hc : ¬ (p < 8 ∧ x + p < x_size) := by omega
    rw [pixelLoop.eq_def, dif_neg hc, Nat.zero_testBit]
    have hpk : ¬ (p ≤ k) := by omega
    simp [hpk]
  | succ fuel ih =>
    intro p hf
    by_cases hc : p < 8 ∧ x + p < x_size
    · rw [pixelLoop.eq_def, dif_pos hc,
        pixelLoop_acc raw x_size y x cbit fuel (p + 1) _ (by omega),
        Nat.zero_or, Nat.testBit_lor, ih (p + 1) (by omega)]
      by_cases hpk : p = k
      · subst hpk
        have h1 : ¬ (p + 1 ≤ p) := by omega
        have h2 : x + p < x_size := hc.2
        have ht : ((raw (y * x_size + x + p) >>> cbit &&& 1) <<< (7 - p)).testBit (7 - p)
            = (raw (y * x_size + x + p)).testBit cbit := by
          rw [Nat.testBit_shiftLeft]
          have hd : decide (7 - p ≥ 7 - p) = true := by simp
          have hone : Nat.testBit 1 0 = true := by decide
          rw [hd, Bool.true_and, Nat.sub_self, Nat.testBit_land, Nat.testBit_shiftRight,
            Nat.add_zero, hone, Bool.and_true]
        rw [ht]
        simp [h1, h2]
      · have ht : ((raw (y * x_size + x + p) >>> cbit &&& 1) <<< (7 - p)).testBit (7 - k)
            = false := by
          rw [Nat.testBit_shiftLeft]
          by_cases hord : p < k
          · have hlt7 : ¬ (7 - k ≥ 7 - p) := by omega
            simp [hlt7]
          · have hge : 7 - k ≥ 7 - p := by omega
            have hidx : 7 - k - (7 - p) = p - k := by omega
            have hlt : raw (y * x_size + x + p) >>> cbit &&& 1 < 2 ^ (p - k) := by
              rw [Nat.and_one_is_mod]
              have h2 : raw (y * x_size + x + p) >>> cbit % 2 < 2 := Nat.mod_lt _ (by omega)
              have h3 : (2 : Nat) ≤ 2 ^ (p - k) := by
                have hpk2 : 1 ≤ p - k := by omega
                calc (2 : Nat) = 2 ^ 1 := by norm_num
                _ ≤ 2 ^ (p - k) := Nat.pow_le_pow_right (by omega) hpk2
              omega
            rw [hidx, Nat.testBit_lt_two_pow hlt]
            simp
        rw [ht, Bool.false_or]
        have hdec : decide (p + 1 ≤ k) = decide (p ≤ k) :=
          decide_eq_decide.mpr (by omega)
        rw [hdec]
    · rw [pixelLoop.eq_def, dif_neg hc, Nat.zero_testBit]
      by_cases hp : p ≤ k
      · by_cases hxk : x + k < x_size
        · exfalso
          omega
        · simp [hxk]
      · simp [hp]

theorem sum_testBit_two_pow (k : Nat) :
    ∀ n : Nat, n < 2 ^ k →
      (Finset.range k).sum (fun b => (n.testBit b).toNat * 2 ^ b) = n := by
  induction k with
  | zero =>
    intro n h
    simp only [Nat.pow_zero, Nat.lt_one_iff] at h
    simp [h]
  | succ k ih =>
    intro n h
    rw [Finset.sum_range_succ']
    have hdiv : n / 2 < 2 ^ k := by
      have h2 : 2 ^ (k + 1) = 2 ^ k * 2 := by rw [Nat.pow_succ]
      omega
    have hrw : ∀ b, (n.testBit (b + 1)).toNat * 2 ^ (b + 1)
        = ((n / 2).testBit b).toNat * 2 ^ b * 2 := by
      intro b
      rw [← Nat.testBit_div_two]
      ring
    rw [Finset.sum_congr rfl (fun b _ => hrw b), ← Finset.sum_mul, ih (n / 2) hdiv,
      Nat.testBit_zero]
    rcases Nat.mod_two_eq_zero_or_one n with h0 | h1
    · simp [h0]
      omega
    · simp [h1]
      omega

theorem slot_addr_inj (v1 v2 c1 c2 : Nat) (h1 : v1 < CARD_MEMORY_SIZE)
    (h2 : v2 < CARD_MEMORY_SIZE)
    (he : v1 + CARD_MEMORY_SIZE * c1 = v2 + CARD_MEMORY_SIZE * c2) :
    v1 = v2 ∧ c1 = c2 := by
  have hm1 : (v1 + CARD_MEMORY_SIZE * c1) % CARD_MEMORY_SIZE = v1 := by
    rw [Nat.add_mul_mod_self_left]
    exact Nat.mod_eq_of_lt h1
  have hm2 : (v2 + CARD_MEMORY_SIZE * c2) % CARD_MEMORY_SIZE = v2 := by
    rw [Nat.add_mul_mod_self_left]
    exact Nat.mod_eq_of_lt h2
  have hv : v1 = v2 := by rw [← hm1, ← hm2, he]
  refine ⟨hv, ?_⟩
  subst hv
  have hc : CARD_MEMORY_SIZE * c1 = CARD_MEMORY_SIZE * c2 := by omega
  exact Nat.eq_of_mul_eq_mul_left (by decide) hc

theorem row_addr_inj (g y1 j1 y2 j2 : Nat) (h1 : j1 < g) (h2 : j2 < g)
    (he : y1 * g + j1 = y2 * g + j2) : y1 = y2 ∧ j1 = j2 := by
  have hy : y1 = y2 := by
    rcases Nat.lt_trichotomy y1 y2 with hlt | heq | hgt
    · exfalso
      have ha : y1 * g + j1 < (y1 + 1) * g := by rw [Nat.succ_mul]; omega
      have hb : (y1 + 1) * g ≤ y2 * g := Nat.mul_le_mul_right g (by omega)
      omega
    · exact heq
    · exfalso
      have ha : y2 * g + j2 < (y2 + 1) * g := by rw [Nat.succ_mul]; omega
      have hb : (y2 + 1) * g ≤ y1 * g := Nat.mul_le_mul_right g (by omega)
      omega
  subst hy
  omega

theorem cbit_foldl_conv (raw : Nat → Nat) (x_size y x : Nat) :
    ∀ (l : List Nat) (st : (Nat → Nat) × Nat × Nat),
      (l.foldl (cbitBody raw x_size y x) st).2.1 = st.2.1 := by
  intro l
  induction l with
  | nil => intro st; rfl
  | cons c t ih =>
    intro st
    rw [List.foldl_cons, ih]
    rfl

theorem cbit_foldl_ds (raw : Nat → Nat) (x_size y x : Nat) :
    ∀ (l : List Nat) (st : (Nat → Nat) × Nat × Nat),
      (l.foldl (cbitBody raw x_size y x) st).2.2 = st.2.2 + l.length := by
  intro l
  induction l with
  | nil => intro st; rfl
  | cons c t ih =>
    intro st
    rw [List.foldl_cons, ih]
    simp only [cbitBody, List.length_cons]
    omega

theorem cbit_foldl_mem_ne (raw : Nat → Nat) (x_size y x : Nat) :
    ∀ (l : List Nat) (st : (Nat → Nat) × Nat × Nat) (a : Nat),
      (∀ c ∈ l, a ≠ st.2.1 + CARD_MEMORY_SIZE * c) →
      (l.foldl (cbitBody raw x_size y x) st).1 a = st.1 a := by
  intro l
  induction l with
  | nil => intro st a _; rfl
  | cons c t ih =>
    intro st a h
    rw [List.foldl_cons, ih]
    · show (writeByte st.1 (st.2.1 + CARD_MEMORY_SIZE * c) _) a = st.1 a
      unfold writeByte
      rw [if_neg (h c (List.mem_cons_self c t))]
    · intro c2 hc2
      exact h c2 (List.mem_cons_of_mem c hc2)

theorem cbit_foldl_mem_eq (raw : Nat → Nat) (x_size y x : Nat) :
    ∀ (l : List Nat), l.Nodup → ∀ C ∈ l, ∀ (st : (Nat → Nat) × Nat × Nat),
      (l.foldl (cbitBody raw x_size y x) st).1 (st.2.1 + CARD_MEMORY_SIZE * C)
        = pixelLoop raw x_size y x C 0 0 := by
  intro l
  induction l with
  | nil => intro _ C hC; simp at hC
  | cons c t ih =>
    intro hnd C hC st
    rw [List.foldl_cons]
    rcases List.mem_cons.mp hC with heq | hmem
    · subst heq
      have hnotin : C ∉ t := (List.nodup_cons.mp hnd).1
      rw [cbit_foldl_mem_ne raw x_size y x t _ _ ?_]
      · show (writeByte st.1 (st.2.1 + CARD_MEMORY_SIZE * C)
            (pixelLoop raw x_size y x C 0 0)) (st.2.1 + CARD_MEMORY_SIZE * C) = _
        unfold writeByte
        rw [if_pos rfl]
      · intro c2 hc2 heq2
        have hconv : (cbitBody raw x_size y x st C).2.1 = st.2.1 := rfl
        have hcc : C = c2 := by
          have h1 : CARD_MEMORY_SIZE * C = CARD_MEMORY_SIZE * c2 := by omega
          exact Nat.eq_of_mul_eq_mul_left (by decide) h1
        exact hnotin (hcc ▸ hc2)
    · exact ih (List.nodup_cons.mp hnd).2 C hmem (cbitBody raw x_size y x st c)

theorem groupBody_conv (raw : Nat → Nat) (cb xs y : Nat)
    (st : (Nat → Nat) × Nat × Nat) (x : Nat) :
    (groupBody raw cb xs y st x).2.1 = st.2.1 + 1 := by
  simp only [groupBody]
  rw [cbit_foldl_conv]

theorem group_foldl_conv (raw : Nat → Nat) (cb xs y : Nat) :
    ∀ (l : List Nat) (st : (Nat → Nat) × Nat × Nat),
      (l.foldl (fun st g => groupBody raw cb xs y st (g * 8)) st).2.1
        = st.2.1 + l.length := by
  intro l
  induction l with
  | nil => intro st; simp
  | cons g t ih =>
    intro st
    rw [List.foldl_cons, ih, groupBody_conv]
    simp only [List.length_cons]
    omega

theorem group_foldl_mem_ne (raw : Nat → Nat) (cb xs y conv0 a : Nat) :
    ∀ (n s : Nat) (st : (Nat → Nat) × Nat × Nat), st.2.1 = conv0 + s →
      (∀ j c, s ≤ j → j < s + n → c < cb → a ≠ conv0 + j + CARD_MEMORY_SIZE * c) →
      ((List.range' s n).foldl (fun st g => groupBody raw cb xs y st (g * 8)) st).1 a
        = st.1 a := by
  intro n
  induction n with
  | zero => intro s st _ _; rfl
  | succ n ih =>
    intro s st hconv hne
    rw [List.range'_succ, List.foldl_cons]
    have hstep : (groupBody raw cb xs y st (s * 8)).1 a = st.1 a := by
      show ((List.range cb).foldl (cbitBody raw xs y (s * 8)) st).1 a = st.1 a
      apply cbit_foldl_mem_ne
      intro c hcmem
      rw [hconv]
      exact hne s c le_rfl (by omega) (List.mem_range.mp hcmem)
    have hconv2 : (groupBody raw cb xs y st (s * 8)).2.1 = conv0 + (s + 1) := by
      rw [groupBody_conv, hconv]
      omega
    rw [ih (s + 1) _ hconv2 (fun j c hj hjn hc => hne j c (by omega) (by omega) hc), hstep]

theorem group_foldl_mem_eq (raw : Nat → Nat) (cb xs y conv0 G C : Nat) (hC : C < cb) :
    ∀ (n s : Nat) (st : (Nat → Nat) × Nat × Nat), st.2.1 = conv0 + s →
      s ≤ G → G < s + n → s + n ≤ CARD_MEMORY_SIZE →
      ((List.range' s n).foldl (fun st g => groupBody raw cb xs y st (g * 8)) st).1
          (conv0 + G + CARD_MEMORY_SIZE * C)
        = pixelLoop raw xs y (G * 8) C 0 0 := by
  intro n
  induction n with
  | zero => intro s st _ hsG hGn _; omega
  | succ n ih =>
    intro s st hconv hsG hGn hbound
    rw [List.range'_succ, List.foldl_cons]
    by_cases hsg : s = G
    · subst hsg
      have hstep := cbit_foldl_mem_eq raw xs y (s * 8) (List.range cb)
        (List.nodup_range cb) C (List.mem_range.mpr hC) st
      rw [hconv] at hstep
      have htail : ∀ j c, s + 1 ≤ j → j < s + 1 + n → c < cb →
          conv0 + s + CARD_MEMORY_SIZE * C ≠ conv0 + j + CARD_MEMORY_SIZE * c := by
        intro j c hj hjn hc heq
        have h1 : s + CARD_MEMORY_SIZE * C = j + CARD_MEMORY_SIZE * c := by omega
        have h2 := slot_addr_inj s j C c (by omega) (by omega) h1
        omega
      rw [group_foldl_mem_ne raw cb xs y conv0 (conv0 + s + CARD_MEMORY_SIZE * C) n (s + 1)
        (groupBody raw cb xs y st (s * 8)) (by rw [groupBody_conv, hconv]; omega) htail]
      exact hstep
    · exact ih (s + 1) _ (by rw [groupBody_conv, hconv]; omega) (by omega) (by omega) (by omega)

theorem rowBody_conv (raw : Nat → Nat) (cb xs : Nat)
    (st : (Nat → Nat) × Nat × Nat) (y : Nat) :
    (rowBody raw cb xs st y).2.1 = st.2.1 + (xs + 7) / 8 := by
  unfold rowBody
  rw [List.foldl_map, group_foldl_conv, List.length_range]

theorem rows_foldl_mem_ne (raw : Nat → Nat) (cb xs a : Nat) :
    ∀ (n s : Nat) (st : (Nat → Nat) × Nat × Nat), st.2.1 = s * ((xs + 7) / 8) →
      (∀ yy j c, s ≤ yy → yy < s + n → j < (xs + 7) / 8 → c < cb →
        a ≠ yy * ((xs + 7) / 8) + j + CARD_MEMORY_SIZE * c) →
      ((List.range' s n).foldl (rowBody raw cb xs) st).1 a = st.1 a := by
  intro n
  induction n with
  | zero => intro s st _ _; rfl
  | succ n ih =>
    intro s st hconv hne
    rw [List.range'_succ, List.foldl_cons]
    have hstep : (rowBody raw cb xs st s).1 a = st.1 a := by
      unfold rowBody
      rw [List.foldl_map, List.range_eq_range']
      apply group_foldl_mem_ne raw cb xs s (s * ((xs + 7) / 8)) a ((xs + 7) / 8) 0 st
      · rw [Nat.add_zero]
        exact hconv
      · intro j c hj hjn hc
        exact hne s j c le_rfl (by omega) (by omega) hc
    have hconv2 : (rowBody raw cb xs st s).2.1 = (s + 1) * ((xs + 7) / 8) := by
      rw [rowBody_conv, hconv, Nat.succ_mul]
    rw [ih (s + 1) _ hconv2
      (fun yy j c hy hyn hj hc => hne yy j c (by omega) (by omega) hj hc), hstep]

theorem rows_foldl_mem_eq (raw : Nat → Nat) (cb xs Y G C : Nat)
    (hG : G < (xs + 7) / 8) (hC : C < cb) :
    ∀ (n s : Nat) (st : (Nat → Nat) × Nat × Nat), st.2.1 = s * ((xs + 7) / 8) →
      s ≤ Y → Y < s + n → (s + n) * ((xs + 7) / 8) ≤ CARD_MEMORY_SIZE →
      ((List.range' s n).foldl (rowBody raw cb xs) st).1
          (Y * ((xs + 7) / 8) + G + CARD_MEMORY_SIZE * C)
        = pixelLoop raw xs Y (G * 8) C 0 0 := by
  intro n
  induction n with
  | zero => intro s st _ hsY hYn _; omega
  | succ n ih =>
    intro s st hconv hsY hYn hbound
    have hsn : s + 1 + n = s + (n + 1) := by omega
    rw [List.range'_succ, List.foldl_cons]
    by_cases hsy : s = Y
    · subst hsy
      have hgpr : (xs + 7) / 8 ≤ CARD_MEMORY_SIZE := by
        have h1 : 1 * ((xs + 7) / 8) ≤ (s + (n + 1)) * ((xs + 7) / 8) :=
          Nat.mul_le_mul_right _ (by omega)
        rw [Nat.one_mul] at h1
        omega
      have hstep : (rowBody raw cb xs st s).1
          (s * ((xs + 7) / 8) + G + CARD_MEMORY_SIZE * C)
          = pixelLoop raw xs s (G * 8) C 0 0 := by
        unfold rowBody
        rw [List.foldl_map, List.range_eq_range']
        apply group_foldl_mem_eq raw cb xs s (s * ((xs + 7) / 8)) G C hC ((xs + 7) / 8) 0 st
        · rw [Nat.add_zero]
          exact hconv
        · omega
        · omega
        · omega
      have htail : ∀ yy j c, s + 1 ≤ yy → yy < s + 1 + n → j < (xs + 7) / 8 → c < cb →
          s * ((xs + 7) / 8) + G + CARD_MEMORY_SIZE * C
            ≠ yy * ((xs + 7) / 8) + j + CARD_MEMORY_SIZE * c := by
        intro yy j c hy hyn hj hc heq
        have hv1 : s * ((xs + 7) / 8) + G < CARD_MEMORY_SIZE := by
          have ha : s * ((xs + 7) / 8) + G < (s + 1) * ((xs + 7) / 8) := by
            rw [Nat.succ_mul]
            omega
          have hb : (s + 1) * ((xs + 7) / 8) ≤ (s + (n + 1)) * ((xs + 7) / 8) :=
            Nat.mul_le_mul_right _ (by omega)
          omega
        have hv2 : yy * ((xs + 7) / 8) + j < CARD_MEMORY_SIZE := by
          have ha : yy * ((xs + 7) / 8) + j < (yy + 1) * ((xs + 7) / 8) := by
            rw [Nat.succ_mul]
            omega
          have hb : (yy + 1) * ((xs + 7) / 8) ≤ (s + (n + 1)) * ((xs + 7) / 8) :=
            Nat.mul_le_mul_right _ (by omega)
          omega
        have h2 := slot_addr_inj (s * ((xs + 7) / 8) + G) (yy * ((xs + 7) / 8) + j) C c
          hv1 hv2 heq
        have h3 := row_addr_inj ((xs + 7) / 8) s G yy j hG hj h2.1
        omega
      have hconv2 : (rowBody raw cb xs st s).2.1 = (s + 1) * ((xs + 7) / 8) := by
        rw [rowBody_conv, hconv, Nat.succ_mul]
      rw [rows_foldl_mem_ne raw cb xs (s * ((xs + 7) / 8) + G + CARD_MEMORY_SIZE * C) n
        (s + 1) (rowBody raw cb xs st s) hconv2 htail]
      exact hstep
    · refine ih (s + 1) _ ?_ (by omega) (by omega) ?_
      · rw [rowBody_conv, hconv, Nat.succ_mul]
      · rw [hsn]
        exact hbound

theorem convert_to_layers_mem (raw binary : Nat → Nat) (cb xs ys Y G C : Nat)
    (hY : Y < ys) (hG : G < (xs + 7) / 8) (hC : C < cb)
    (hbound : ys * ((xs + 7) / 8) ≤ CARD_MEMORY_SIZE) :
    (convert_to_layers raw binary cb xs ys).1
        (Y * ((xs + 7) / 8) + G + CARD_MEMORY_SIZE * C)
      = pixelLoop raw xs Y (G * 8) C 0 0 := by
  unfold convert_to_layers
  rw [List.range_eq_range']
  apply rows_foldl_mem_eq raw cb xs Y G C hG hC ys 0 (binary, 0, 0)
  · simp
  · omega
  · omega
  · simpa using hbound

/-- C1: bit-plane round trip.  For an image within the device limits
(`x_size <= MAX_COL_BYTES * 8 = 320`, `y_size <= MAX_ROWS = 200`) and a
raster whose value at pixel `(x, y)` is below `2 ^ color_bits`, bit
`7 - (x % 8)` of the combined-buffer byte at offset
`b * CARD_MEMORY_SIZE + x / 8 + ceil(x_size/8) * y` equals bit `b` of the
raster value at index `y * x_size + x`, so reassembling the per-plane bits
reproduces the raster value exactly; bit positions past the row width (the
zero-padded tail of a partial 8-pixel group) read as 0. -/
theorem bit_plane_round_trip (raw binary : Nat → Nat)
    (color_bits x_size y_size x y b : Nat)
    (hx : x < x_size) (hy : y < y_size) (hb : b < color_bits)
    (hxs : x_size ≤ MAX_COL_BYTES * 8) (hys : y_size ≤ MAX_ROWS)
    (hval : raw (y * x_size + x) < 2 ^ color_bits) :
    ((convert_to_layers raw binary color_bits x_size y_size).1
        (b * CARD_MEMORY_SIZE + x / 8 + (x_size + 7) / 8 * y)).testBit (7 - x % 8)
      = (raw (y * x_size + x)).testBit b
    ∧ (Finset.range color_bits).sum (fun c =>
        (((convert_to_layers raw binary color_bits x_size y_size).1
            (c * CARD_MEMORY_SIZE + x / 8 + (x_size + 7) / 8 * y)).testBit
          (7 - x % 8)).toNat * 2 ^ c)
      = raw (y * x_size + x)
    ∧ (∀ k, k < 8 → x_size ≤ x / 8 * 8 + k →
        ((convert_to_layers raw binary color_bits x_size y_size).1
          (b * CARD_MEMORY_SIZE + x / 8 + (x_size + 7) / 8 * y)).testBit (7 - k)
          = false) := by
  have hxs320 : x_size ≤ 320 := by
    have : MAX_COL_BYTES * 8 = 320 := by decide
    omega
  have hys200 : y_size ≤ 200 := by
    have : MAX_ROWS = 200 := by decide
    omega
  have hbound : y_size * ((x_size + 7) / 8) ≤ CARD_MEMORY_SIZE := by
    have h1 : (x_size + 7) / 8 ≤ 40 := by omega
    have h2 : y_size * ((x_size + 7) / 8) ≤ 200 * 40 := Nat.mul_le_mul hys200 h1
    have h3 : (200 : Nat) * 40 ≤ CARD_MEMORY_SIZE := by decide
    omega
  have hG : x / 8 < (x_size + 7) / 8 := by omega
  have hk8 : x % 8 < 8 := by omega
  have haddr : ∀ c : Nat, c * CARD_MEMORY_SIZE + x / 8 + (x_size + 7) / 8 * y
      = y * ((x_size + 7) / 8) + x / 8 + CARD_MEMORY_SIZE * c := by
    intro c
    ring
  have hbit : ∀ c, c < color_bits →
      ((convert_to_layers raw binary color_bits x_size y_size).1
          (c * CARD_MEMORY_SIZE + x / 8 + (x_size + 7) / 8 * y)).testBit (7 - x % 8)
        = (raw (y * x_size + x)).testBit c := by
    intro c hc
    rw [haddr c, convert_to_layers_mem raw binary color_bits x_size y_size y (x / 8) c
      hy hG hc hbound,
      pixelLoop_testBit raw x_size y (x / 8 * 8) c (x % 8) hk8 8 0 (by omega)]
    have hx8 : x / 8 * 8 + x % 8 = x := by omega
    rw [hx8]
    have hidx : y * x_size + x / 8 * 8 + x % 8 = y * x_size + x := by omega
    rw [hidx]
    simp [hx]
  refine ⟨hbit b hb, ?_, ?_⟩
  · rw [Finset.sum_congr rfl (fun c hc => by rw [hbit c (Finset.mem_range.mp hc)])]
    exact sum_testBit_two_pow color_bits (raw (y * x_size + x)) hval
  · intro k hk hbeyond
    rw [haddr b, convert_to_layers_mem raw binary color_bits x_size y_size y (x / 8) b
      hy hG hb hbound,
      pixelLoop_testBit raw x_size y (x / 8 * 8) b k hk 8 0 (by omega)]
    have hnlt : ¬ (x / 8 * 8 + k < x_size) := by omega
    simp [hnlt]

theorem bit_plane_round_trip_witness :
    ((convert_to_layers (fun i => i % 4) (fun _ => 0) 2 9 1).1
        (1 * CARD_MEMORY_SIZE + 3 / 8 + (9 + 7) / 8 * 0)).testBit (7 - 3 % 8)
      = (((fun i => i % 4) (0 * 9 + 3) : Nat)).testBit 1
    ∧ (Finset.range 2).sum (fun c =>
        (((convert_to_layers (fun i => i % 4) (fun _ => 0) 2 9 1).1
            (c * CARD_MEMORY_SIZE + 3 / 8 + (9 + 7) / 8 * 0)).testBit
          (7 - 3 % 8)).toNat * 2 ^ c)
      = ((fun i => i % 4) (0 * 9 + 3) : Nat) := by
  have h := bit_plane_round_trip (fun i => i % 4) (fun _ => 0) 2 9 1 3 0 1
    (by decide) (by decide) (by decide) (by decide) (by decide) (by decide)
  exact ⟨h.1, h.2.1⟩
